import Mathlib

/-!
Shallow embedding of the github-release-tool (`src/grt/main.go`).

Pure string processing (commit-reference extraction, word wrapping,
release-name splitting, label partitioning) is translated directly from the
Go source.  The effectful subcommands (`createMilestone`, `changelog`,
`createRelease`) are modelled as functions of an abstract `Client`
environment that supplies the remote responses; every remote call and every
log line the Go code emits is recorded in an event trace.
-/

namespace Grt

/-! ## Definitions -/

/-- Whitespace as decided by Go's `unicode.IsSpace` for the characters that
can occur in Latin-1: space, tab, newline, vertical tab, form feed,
carriage return, NEL and NBSP. -/
def isSpaceGo (c : Char) : Bool :=
  c = ' ' || c = '\t' || c = '\n' || c = (Char.ofNat 11) || c = (Char.ofNat 12) ||
    c = '\r' || c = (Char.ofNat 0x85) || c = (Char.ofNat 0xA0)

/-- Maximal leading run of ASCII digits together with the rest of the
string; models the greedy `\d+` of the two regexes in `getFixes`. -/
def takeDigits : List Char → List Char × List Char
  | [] => ([], [])
  | c :: cs =>
    if c.isDigit then
      let p := takeDigits cs
      (c :: p.1, p.2)
    else ([], c :: cs)

/-- Numeric value of a digit string (base 10). -/
def natOfDigits (ds : List Char) : Nat :=
  ds.foldl (fun a c => a * 10 + (c.toNat - '0'.toNat)) 0

/-- Go's `strconv.Atoi` on a nonempty all-digit string: the numeric value,
or failure when the value overflows a signed 64-bit `int`
(`getFixes` skips a match whose number fails to parse). -/
def atoiGo (ds : List Char) : Option Nat :=
  if natOfDigits ds ≤ 9223372036854775807 then some (natOfDigits ds) else none

/-- Whether the second list starts with the first one. -/
def startsWithCL : List Char → List Char → Bool
  | [], _ => true
  | _ :: _, [] => false
  | p :: ps, c :: cs => p = c && startsWithCL ps cs

/-- The literal pattern `fixes #` of `fixesRe` in `getFixes`. -/
def fixesPat : List Char := ['f', 'i', 'x', 'e', 's', ' ', '#']

/-- All numbers of the non-overlapping matches of `fixes #(\d+)` in a line,
left to right, as produced by `fixesRe.FindAllStringSubmatch` followed by
`strconv.Atoi` on each capture (a match whose number fails to parse is
skipped).  The scan advances one character at a time; this yields exactly
the regex engine's non-overlapping matches because no match can begin
strictly inside another one: the character `f` occurs in a match
`fixes #<digits>` only at its first position. -/
def scanFixes : List Char → List Nat
  | [] => []
  | c :: cs =>
    let rest := scanFixes cs
    if startsWithCL fixesPat (c :: cs) then
      let p := takeDigits ((c :: cs).drop 7)
      if p.1 = [] then rest
      else (atoiGo p.1).toList ++ rest
    else rest

/-- The number captured by `pullReqRe = \(#(\d+)\)$` when it matches the
line, i.e. when the line ends in `(#<digits>)`; `none` when there is no
match or the number fails to parse. -/
def trailingRef (s : List Char) : Option Nat :=
  let r := s.reverse
  if r.head? = some ')' then
    let p := takeDigits r.tail
    if p.1 ≠ [] ∧ p.2.take 2 = ['#', '('] then atoiGo p.1.reverse else none
  else none

/-- First line of a commit message: `strings.Split(msg, "\n")` then index 0. -/
def firstLine (s : List Char) : List Char := s.takeWhile (· ≠ '\n')

/-- A repository commit as consumed by `getFixes`: only the commit message
(`commit.Commit.GetMessage()`) is read. -/
structure Commit where
  message : String
deriving DecidableEq, Repr

/-- The issue numbers contributed by each commit in order: all `fixes #N`
matches of the subject, then the trailing `(#N)` match of the subject. -/
def collectRefs (commits : List Commit) : List Nat :=
  commits.flatMap fun cm =>
    let s := firstLine cm.message.data
    scanFixes s ++ (trailingRef s).toList

/-- First-seen deduplication against an accumulator of already seen
numbers; models the `seen` map of `getFixes`. -/
def dedupSeen (seen : List Nat) : List Nat → List Nat
  | [] => []
  | n :: ns => if n ∈ seen then dedupSeen seen ns else n :: dedupSeen (n :: seen) ns

/-- The commit-reference extractor `getFixes` of `src/grt/main.go`:
first-seen deduplicated issue numbers of the subjects, sorted ascending
(`sort.Ints`). -/
def getFixes (commits : List Commit) : List Nat :=
  List.insertionSort (· ≤ ·) (dedupSeen [] (collectRefs commits))

/-- Modelled from the claim's reference definition: every `fixes #<digits>`
match contributes its number, with no integer-parsing failure. -/
def specScanFixes : List Char → List Nat
  | [] => []
  | c :: cs =>
    let rest := specScanFixes cs
    if startsWithCL fixesPat (c :: cs) then
      let p := takeDigits ((c :: cs).drop 7)
      if p.1 = [] then rest
      else natOfDigits p.1 :: rest
    else rest

/-- Modelled from the claim's reference definition: a trailing `(#<digits>)`
contributes its number, with no integer-parsing failure. -/
def specTrailingRef (s : List Char) : Option Nat :=
  let r := s.reverse
  if r.head? = some ')' then
    let p := takeDigits r.tail
    if p.1 ≠ [] ∧ p.2.take 2 = ['#', '('] then some (natOfDigits p.1.reverse) else none
  else none

/-- Modelled from the claim's reference definition: per commit in input
order, first line only, all `fixes #<digits>` matches then the trailing
`(#<digits>)` match. -/
def specCollectRefs (commits : List Commit) : List Nat :=
  commits.flatMap fun cm =>
    let s := firstLine cm.message.data
    specScanFixes s ++ (specTrailingRef s).toList

/-- Modelled from the claim's reference definition of the extractor: each
matched number added exactly once in first-seen order, then sorted
ascending. -/
def specGetFixes (commits : List Commit) : List Nat :=
  List.insertionSort (· ≤ ·) (dedupSeen [] (specCollectRefs commits))

/-- The in-range predicate of Go's 64-bit `strconv.Atoi`. -/
def inIntRange (n : Nat) : Bool := n ≤ 9223372036854775807

/-- Accumulator form of Go's `strings.Fields`: walk the characters,
collecting the current word in reverse in `acc`, emitting it when
whitespace is met. -/
def fieldsAux : List Char → List Char → List (List Char)
  | acc, [] => if acc = [] then [] else [acc.reverse]
  | acc, c :: cs =>
    if isSpaceGo c then
      if acc = [] then fieldsAux [] cs else acc.reverse :: fieldsAux [] cs
    else fieldsAux (c :: acc) cs

/-- Go's `strings.Fields`: the maximal whitespace-free runs of the string. -/
def fields (s : List Char) : List (List Char) := fieldsAux [] s

/-- One iteration of the word loop of `wrapParagraph`: append a separating
space when the current line is nonempty, wrap (newline plus the hanging
indent `pref1`) when the word together with the line exceeds the width,
then append the word; the second component is the running line length `l`. -/
def wpStep (w : Nat) (pref1 : List Char) (st : List Char × Nat) (word : List Char) :
    List Char × Nat :=
  let st1 := if st.2 > 0 then (st.1 ++ [' '], st.2 + 1) else st
  let st2 :=
    if st1.2 + word.length > w then (st1.1 ++ '\n' :: pref1, pref1.length) else st1
  (st2.1 ++ word, st2.2 + word.length)

/-- `wrapParagraph` of `src/grt/main.go`: split the line into fields, give
paragraphs whose first word is `-` or `*` a two-space hanging indent, and
greedily pack the words. -/
def wrapParagraph (s : List Char) (w : Nat) : List Char :=
  match fields s with
  | [] => []
  | w0 :: rest =>
    ((w0 :: rest).foldl
      (wpStep w (if w0 = ['-'] || w0 = ['*'] then [' ', ' '] else [])) ([], 0)).1

/-- Lines of a string as produced by Go's `strings.Split(s, "\n")`. -/
def splitLines : List Char → List (List Char)
  | [] => [[]]
  | c :: cs =>
    let r := splitLines cs
    if c = '\n' then [] :: r
    else
      match r with
      | [] => [[c]]
      | l :: ls => (c :: l) :: ls

/-- `wrap` of `src/grt/main.go`: wrap each newline-separated line as its own
paragraph and rejoin with newlines. -/
def wrap (s : List Char) (w : Nat) : List Char :=
  List.intercalate ['\n'] ((splitLines s).map (wrapParagraph · w))

/-- A line with its trailing spaces removed. -/
def dropTrailSp (x : List Char) : List Char :=
  (x.reverse.dropWhile (· = ' ')).reverse

/-- Modelled from the claim's words: every maximal run of whitespace
replaced by a single space. -/
def collapseWs : List Char → List Char
  | [] => []
  | [c] => if isSpaceGo c then [' '] else [c]
  | c :: d :: cs =>
    if isSpaceGo c then
      if isSpaceGo d then collapseWs (d :: cs) else ' ' :: collapseWs (d :: cs)
    else c :: collapseWs (d :: cs)

/-- Trailing whitespace removed. -/
def trimRight (s : List Char) : List Char :=
  (s.reverse.dropWhile isSpaceGo).reverse

/-- Modelled from the claim's words: whitespace runs collapsed to single
spaces, then leading and trailing whitespace removed. -/
def normalizeWs (s : List Char) : List Char :=
  trimRight ((collapseWs s).dropWhile isSpaceGo)

/-- Completed lines joined with newlines, followed by the current line;
the shape of the builder string throughout the `wrapParagraph` loop. -/
def joinNl (done : List (List Char)) (cur : List Char) : List Char :=
  (done.map (fun x => x ++ ['\n'])).flatten ++ cur

/-- Invariant of the `wrapParagraph` word loop: the builder splits into
completed lines `done` and a current line `cur`; the running length is the
current line's length and stays within the width; completed lines carry one
trailing space over a within-width prefix; every line after the first is
the hanging indent followed by a non-whitespace character. -/
def WpInv (w : Nat) (pref1 : List Char) (st : List Char × Nat) : Prop :=
  ∃ done cur,
    st.1 = joinNl done cur ∧
    st.2 = cur.length ∧
    cur.length ≤ w ∧
    (∀ x ∈ done, '\n' ∉ x) ∧ '\n' ∉ cur ∧
    (∀ x ∈ done, ∃ y, x = y ++ [' '] ∧ y.length ≤ w) ∧
    (∀ x ∈ done.tail, ∃ c t, x = pref1 ++ c :: t ∧ isSpaceGo c = false) ∧
    (done ≠ [] → ∃ c t, cur = pref1 ++ c :: t ∧ isSpaceGo c = false)

/-- A milestone as read from the remote service. -/
structure Milestone where
  number : Nat
  title : String
  description : String
deriving DecidableEq, Repr

/-- An issue as read from the remote service.  `isPR` models
`Issue.IsPullRequest()` (presence of pull-request links); `milestone` holds
the number of the issue's milestone when one is set. -/
structure Issue where
  number : Nat
  state : String
  milestone : Option Nat
  labels : List String
  title : String
  htmlURL : String
  isPR : Bool
deriving DecidableEq, Repr

/-- The release resource `createRelease` builds. -/
structure RepositoryRelease where
  name : String
  tagName : String
  body : String
  prerelease : Bool
  draft : Bool
deriving DecidableEq, Repr

/-- Responses of the remote service to each call the tool makes.  The
paginated searches (`getMilestone` over `ListMilestones`, the issue listing
over `ListByRepo`) are abstracted by their net effect: an optional
milestone found by exact title, and the full issue list of a milestone. -/
structure Client where
  milestoneByTitle : String → Option Milestone
  createMilestoneRes : String → Except String Milestone
  compareCommitsRes : String → String → Except String (List Commit)
  getIssueRes : Nat → Except String Issue
  editIssueRes : Nat → Nat → Except String Unit
  issuesByMilestone : Nat → Except String (List Issue)
  createReleaseRes : RepositoryRelease → Except String Unit
  editMilestoneRes : Nat → String → Except String Unit

/-- The observable events of a run: each remote call (reads and mutations)
and each log line, in program order. -/
inductive Event where
  | readMilestone (title : String)
  | createMilestoneCall (title : String)
  | readCommits (since toRef : String)
  | readIssue (n : Nat)
  | editIssueCall (n : Nat) (milestoneNumber : Nat)
  | readIssuesByMilestone (m : Nat)
  | createReleaseCall (rel : RepositoryRelease)
  | editMilestoneCall (n : Nat) (state : String)
  | logCreatingMilestone (title : String)
  | logGetIssueErr (e : String)
  | logNotClosed (n : Nat)
  | logAlreadyCorrect (n : Nat)
  | logAlreadyOther (n : Nat)
  | logMarking (n : Nat)
  | logEditIssueErr (e : String)
deriving DecidableEq, Repr

/-- Whether an event is a mutating remote call (create/edit). -/
def Event.isMutation : Event → Bool
  | .createMilestoneCall _ => true
  | .editIssueCall _ _ => true
  | .createReleaseCall _ => true
  | .editMilestoneCall _ _ => true
  | _ => false

/-- The body of the per-issue loop of `createMilestone` for one referenced
issue number: fetch the issue, skip (log only) on fetch failure, non-closed
state, or a foreign milestone without `force`, no-op on the correct
milestone, otherwise log and (outside dry-run) edit the issue's milestone. -/
def processFix (c : Client) (stoneNumber : Nat) (force dryRun : Bool) (fix : Nat) :
    List Event :=
  Event.readIssue fix ::
    match c.getIssueRes fix with
    | .error e => [Event.logGetIssueErr e]
    | .ok issue =>
      if issue.state ≠ "closed" then [Event.logNotClosed fix]
      else
        let mark : List Event :=
          Event.logMarking fix ::
            (if dryRun then []
             else
               Event.editIssueCall issue.number stoneNumber ::
                 (match c.editIssueRes issue.number stoneNumber with
                  | .error e => [Event.logEditIssueErr e]
                  | .ok _ => []))
        match issue.milestone with
        | some m =>
          if m = stoneNumber then [Event.logAlreadyCorrect fix]
          else if force then mark else [Event.logAlreadyOther fix]
        | none => mark

/-- The commit-listing and per-issue loop of `createMilestone`, entered
once the milestone number is determined (0 for the nil milestone left by a
dry run); `ev0` holds the events of the milestone-lookup phase. -/
def createMilestoneLoop (c : Client) (stoneNumber : Nat) (since toRef : String)
    (force dryRun : Bool) (ev0 : List Event) : List Event × Except String Unit :=
  match c.compareCommitsRes since toRef with
  | .error e => (ev0 ++ [Event.readCommits since toRef], .error ("listing commits: " ++ e))
  | .ok commits =>
    (ev0 ++ Event.readCommits since toRef ::
      (getFixes commits).flatMap (processFix c stoneNumber force dryRun), .ok ())

/-- `createMilestone` of `src/grt/main.go`: look up the milestone by title,
create it when absent (skipped under dry-run, leaving the nil milestone
whose `GetNumber()` is 0), then run the loop over the commit range. -/
def createMilestone (c : Client) (since toRef milestone : String) (force dryRun : Bool) :
    List Event × Except String Unit :=
  match c.milestoneByTitle milestone with
  | some stone =>
    createMilestoneLoop c stone.number since toRef force dryRun
      [Event.readMilestone milestone]
  | none =>
    if dryRun then
      createMilestoneLoop c 0 since toRef force dryRun
        [Event.readMilestone milestone, Event.logCreatingMilestone milestone]
    else
      match c.createMilestoneRes milestone with
      | .error e =>
        ([Event.readMilestone milestone, Event.logCreatingMilestone milestone,
          Event.createMilestoneCall milestone], .error e)
      | .ok stone =>
        createMilestoneLoop c stone.number since toRef force dryRun
          [Event.readMilestone milestone, Event.logCreatingMilestone milestone,
            Event.createMilestoneCall milestone]

/-- Go's `<` on strings: lexicographic comparison of the character
sequences. -/
def strLtCL : List Char → List Char → Bool
  | [], [] => false
  | [], _ :: _ => true
  | _ :: _, [] => false
  | a :: as, b :: bs =>
    if a.toNat < b.toNat then true
    else if b.toNat < a.toNat then false
    else strLtCL as bs

/-- Go's `<=` on strings, as used by `sort.Strings`. -/
def strLeGo (a b : String) : Bool := !(strLtCL b.data a.data)

/-- Sorted label names of an issue (the `labels` helper sorts them with
`sort.Strings`). -/
def labelsOf (i : Issue) : List String :=
  List.insertionSort (fun a b => strLeGo a b = true) i.labels

/-- The `contains` helper of the source: membership of a string in a
slice. -/
def containsGo (s : String) (ss : List String) : Bool :=
  ss.any (· == s)

/-- The partition loop of `changelog`: skip pull requests and issues
carrying any skip label, then bucket by `bug` / `enhancement` / other,
first matching rule winning. -/
def partitionIssues (skipLabels : List String) :
    List Issue → List Issue × List Issue × List Issue
  | [] => ([], [], [])
  | i :: is =>
    let rest := partitionIssues skipLabels is
    if i.isPR then rest
    else if skipLabels.any (fun sk => containsGo sk (labelsOf i)) then rest
    else if containsGo "bug" (labelsOf i) then (i :: rest.1, rest.2.1, rest.2.2)
    else if containsGo "enhancement" (labelsOf i) then
      (rest.1, i :: rest.2.1, rest.2.2)
    else (rest.1, rest.2.1, i :: rest.2.2)

/-- Go's `strings.TrimSpace`. -/
def trimSpace (s : List Char) : List Char :=
  trimRight (s.dropWhile isSpaceGo)

/-- One issue line of `printIssues`. -/
def printIssueLine (md : Bool) (i : Issue) : String :=
  if md then "- [#" ++ toString i.number ++ "](" ++ i.htmlURL ++ "): " ++ i.title ++ "\n"
  else "- #" ++ toString i.number ++ ": " ++ i.title ++ "\n"

/-- `printIssues` of the source. -/
def printIssues (md : Bool) (issues : List Issue) : String :=
  String.join (issues.map (printIssueLine md))

/-- One bucket of the changelog output: nothing when empty, otherwise the
title, a blank line, the issue lines, and a closing blank line. -/
def bucketSection (md : Bool) (mdTitle plainTitle : String) (issues : List Issue) :
    String :=
  if issues.length > 0 then
    (if md then mdTitle else plainTitle) ++ "\n\n" ++ printIssues md issues ++ "\n"
  else ""

/-- The subject heading of the changelog: the release name, as a markdown
link to the release page when `md` is set. -/
def subjectLine (owner repo release : String) (md : Bool) : String :=
  if md then
    "# [" ++ release ++ "](https://github.com/" ++ owner ++ "/" ++ repo ++
      "/releases/" ++ release ++ ")\n\n"
  else release ++ "\n\n"

/-- The milestone-description block: when the raw description is nonempty,
it is trimmed, wrapped to 72 columns and followed by a blank line. -/
def descriptionBlock (descr : String) : String :=
  if descr ≠ "" then String.mk (wrap (trimSpace descr.data) 72) ++ "\n\n" else ""

/-- The full text `changelog` writes, given the milestone and its fetched
issues: optional subject, description block, and the three buckets of the
issues sorted ascending by number. -/
def changelogOutput (owner repo release : String) (md : Bool)
    (skipLabels : List String) (withSubject : Bool) (stone : Milestone)
    (issues : List Issue) : String :=
  let sorted := List.insertionSort (fun a b => a.number ≤ b.number) issues
  let parts := partitionIssues skipLabels sorted
  (if withSubject then subjectLine owner repo release md else "") ++
    descriptionBlock stone.description ++
    bucketSection md "## Bugfixes" "Bugfixes:" parts.1 ++
    bucketSection md "## Enhancements" "Enhancements:" parts.2.1 ++
    bucketSection md "## Other issues" "Other issues:" parts.2.2

/-- Go `strings.SplitN(s, "-", 2)` for the separator `-`: at most two
pieces, split at the first `-`. -/
def splitN2dash (s : List Char) : List (List Char) :=
  match s.dropWhile (· ≠ '-') with
  | [] => [s.takeWhile (· ≠ '-')]
  | _ :: rest => [s.takeWhile (· ≠ '-'), rest]

/-- The milestone title derived from a release name in `changelog` and
`createRelease`: `strings.SplitN(release, "-", 2)[0]`. -/
def releaseMilestone (release : String) : String :=
  String.mk ((splitN2dash release.data).headD [])

/-- The prerelease flag of `createRelease`: `release != milestone`. -/
def releasePre (release : String) : Bool :=
  release != releaseMilestone release

/-- `changelog` of `src/grt/main.go`: derive the milestone title from the
release name, look the milestone up (fatal when absent), fetch its issues
(state `all`), and render; returns the event trace and the rendered text. -/
def changelog (c : Client) (owner repo release : String) (md : Bool)
    (skipLabels : List String) (withSubject : Bool) :
    List Event × Except String String :=
  let milestone := releaseMilestone release
  match c.milestoneByTitle milestone with
  | none => ([Event.readMilestone milestone], .error "getting milestone: not found")
  | some stone =>
    match c.issuesByMilestone stone.number with
    | .error e =>
      ([Event.readMilestone milestone, Event.readIssuesByMilestone stone.number],
        .error ("listing issues: " ++ e))
    | .ok issues =>
      ([Event.readMilestone milestone, Event.readIssuesByMilestone stone.number],
        .ok (changelogOutput owner repo release md skipLabels withSubject stone issues))

/-- `createRelease` of `src/grt/main.go`: look the milestone up, create the
release resource (name = tag = release name, the rendered changelog as
body, prerelease when the name differs from the milestone title, never a
draft), and close the milestone when not a prerelease. -/
def createRelease (c : Client) (release chlog : String) :
    List Event × Except String Unit :=
  let milestone := releaseMilestone release
  let pre := releasePre release
  match c.milestoneByTitle milestone with
  | none => ([Event.readMilestone milestone], .error "getting milestone: not found")
  | some stone =>
    let rel : RepositoryRelease :=
      { name := release, tagName := release, body := chlog,
        prerelease := pre, draft := false }
    match c.createReleaseRes rel with
    | .error e => ([Event.readMilestone milestone, Event.createReleaseCall rel], .error e)
    | .ok _ =>
      if pre then ([Event.readMilestone milestone, Event.createReleaseCall rel], .ok ())
      else
        match c.editMilestoneRes stone.number "closed" with
        | .error e =>
          ([Event.readMilestone milestone, Event.createReleaseCall rel,
            Event.editMilestoneCall stone.number "closed"],
            .error ("closing milestone: " ++ e))
        | .ok _ =>
          ([Event.readMilestone milestone, Event.createReleaseCall rel,
            Event.editMilestoneCall stone.number "closed"], .ok ())

/-- `releaseOptions.Run`: render the changelog into a buffer with
`withSubject = false` and markdown off, then create the release with that
text as body. -/
def releaseRun (c : Client) (owner repo release : String) (skipLabels : List String) :
    List Event × Except String Unit :=
  match changelog c owner repo release false skipLabels false with
  | (ev, .error e) => (ev, .error e)
  | (ev, .ok body) =>
    let r := createRelease c release body
    (ev ++ r.1, r.2)

/-- An issue that survives the changelog filters: not a pull request and
carrying no label of the skip list. -/
def survives (skipLabels : List String) (i : Issue) : Bool :=
  !i.isPR && !(skipLabels.any fun sk => containsGo sk (labelsOf i))

/-- A small concrete client used to exercise the effectful models. -/
def clientA : Client :=
  { milestoneByTitle := fun t => if t = "v1.2.0" then some ⟨1, "v1.2.0", ""⟩ else none,
    createMilestoneRes := fun t => .ok ⟨5, t, ""⟩,
    compareCommitsRes := fun _ _ => .ok [⟨"Fix crash, fixes #3"⟩],
    getIssueRes := fun n => .ok ⟨n, "closed", none, [], "t", "u", false⟩,
    editIssueRes := fun _ _ => .ok (),
    issuesByMilestone := fun _ => .ok [⟨1, "closed", some 1, ["bug"], "Crash", "u1", false⟩],
    createReleaseRes := fun _ => .ok (),
    editMilestoneRes := fun _ _ => .ok () }

/-- A client whose issues are pull requests (closed, no milestone). -/
def clientPR : Client :=
  { milestoneByTitle := fun _ => some ⟨1, "M", ""⟩,
    createMilestoneRes := fun t => .ok ⟨1, t, ""⟩,
    compareCommitsRes := fun _ _ => .ok [⟨"Merge pull request (#7)"⟩],
    getIssueRes := fun n => .ok ⟨n, "closed", none, [], "t", "u", true⟩,
    editIssueRes := fun _ _ => .ok (),
    issuesByMilestone := fun _ => .ok [],
    createReleaseRes := fun _ => .ok (),
    editMilestoneRes := fun _ _ => .ok () }

/-- Whether an event is a release-creation call. -/
def Event.isCreateRelease : Event → Bool
  | .createReleaseCall _ => true
  | _ => false

/-! ## Theorems -/

theorem takeDigits_snd_length : ∀ s : List Char, (takeDigits s).2.length ≤ s.length
  | [] => Nat.le_refl _
  | c :: cs => by
    simp only [takeDigits]
    split
    · exact Nat.le_succ_of_le (takeDigits_snd_length cs)
    · exact Nat.le_refl _

theorem sampleEval1 : getFixes [⟨"Fix crash, fixes #12 and fixes #3\n\nbody fixes #99"⟩] = [3, 12] := by decide

theorem sampleEval2 : getFixes [⟨"Add feature (#123)"⟩] = [123] := by decide

theorem sampleEval3 : getFixes [⟨"a fixes #7 (#7)"⟩, ⟨"b fixes #7"⟩] = [7] := by decide

theorem mem_dedupSeen {n : Nat} : ∀ (l seen : List Nat),
    n ∈ dedupSeen seen l ↔ n ∈ l ∧ n ∉ seen
  | [], seen => by simp [dedupSeen]
  | m :: ms, seen => by
    by_cases hm : m ∈ seen
    · rw [show dedupSeen seen (m :: ms) = dedupSeen seen ms from by
        simp [dedupSeen, hm], mem_dedupSeen ms seen]
      constructor
      · exact fun h => ⟨List.mem_cons_of_mem _ h.1, h.2⟩
      · rintro ⟨h1, h2⟩
        rcases List.mem_cons.mp h1 with rfl | h1
        · exact absurd hm h2
        · exact ⟨h1, h2⟩
    · rw [show dedupSeen seen (m :: ms) = m :: dedupSeen (m :: seen) ms from by
        simp [dedupSeen, hm], List.mem_cons, mem_dedupSeen ms (m :: seen)]
      constructor
      · rintro (rfl | ⟨h1, h2⟩)
        · exact ⟨List.mem_cons_self _ _, hm⟩
        · exact ⟨List.mem_cons_of_mem _ h1, fun hn => h2 (List.mem_cons_of_mem _ hn)⟩
      · rintro ⟨h1, h2⟩
        by_cases hnm : n = m
        · exact Or.inl hnm
        · rcases List.mem_cons.mp h1 with rfl | h1
          · exact Or.inl rfl
          · exact Or.inr ⟨h1, fun hn => (List.mem_cons.mp hn).elim hnm h2⟩

theorem nodup_dedupSeen : ∀ (l seen : List Nat), (dedupSeen seen l).Nodup
  | [], _ => List.nodup_nil
  | m :: ms, seen => by
    simp only [dedupSeen]
    split
    · exact nodup_dedupSeen ms seen
    · refine List.nodup_cons.mpr ⟨fun hm => ?_, nodup_dedupSeen ms (m :: seen)⟩
      exact ((mem_dedupSeen ms (m :: seen)).mp hm).2 (List.mem_cons_self _ _)

theorem atoiGo_toList (ds : List Char) :
    (atoiGo ds).toList = [natOfDigits ds].filter inIntRange := by
  unfold atoiGo
  split <;> simp_all [inIntRange]

theorem scanFixes_eq_filter : ∀ s : List Char,
    scanFixes s = (specScanFixes s).filter inIntRange
  | [] => rfl
  | c :: cs => by
    have ih := scanFixes_eq_filter cs
    simp only [scanFixes, specScanFixes]
    split
    · split
      · exact ih
      · rw [atoiGo_toList, ih]
        by_cases h : inIntRange (natOfDigits (takeDigits (List.drop 6 cs)).1) = true <;>
          simp [h]
    · exact ih

theorem trailingRef_eq_filter (s : List Char) :
    (trailingRef s).toList = (specTrailingRef s).toList.filter inIntRange := by
  unfold trailingRef specTrailingRef
  dsimp only
  split
  · split
    · exact atoiGo_toList _
    · rfl
  · rfl

theorem collectRefs_eq_filter (commits : List Commit) :
    collectRefs commits = (specCollectRefs commits).filter inIntRange := by
  unfold collectRefs specCollectRefs
  induction commits with
  | nil => rfl
  | cons cm cms ih =>
    simp only [List.flatMap_cons, List.filter_append, ih]
    rw [scanFixes_eq_filter, trailingRef_eq_filter]

/-- C1 counterexample: the extractor does not return exactly the numbers of
the claim's reference definition.  On the single commit subject
`a fixes #9223372036854775808` the matched number overflows a signed 64-bit
`int`, `strconv.Atoi` fails and `getFixes` discards the match, while the
reference definition keeps it. -/
theorem c1_counterexample :
    getFixes [⟨"a fixes #9223372036854775808"⟩] = [] ∧
    specGetFixes [⟨"a fixes #9223372036854775808"⟩] = [9223372036854775808] := by
  constructor <;> decide

/-- C1 (amended): `getFixes` returns exactly the issue numbers of the
reference definition amended to discard a matched number that exceeds the
signed 64-bit integer maximum 9223372036854775807 (where `strconv.Atoi`
fails): per commit in input order, first line only, all `fixes #<digits>`
matches then a trailing `(#<digits>)`, each in-range number kept once in
first-seen order, finally sorted ascending.  Consequently the output is
strictly ascending (hence duplicate-free), and a subject ending in
`(#123)` contributes 123 with no `fixes` keyword present. -/
theorem c1_getFixes_extractor (commits : List Commit) :
    getFixes commits =
      List.insertionSort (· ≤ ·)
        (dedupSeen [] ((specCollectRefs commits).filter inIntRange)) ∧
    List.Sorted (· < ·) (getFixes commits) ∧
    (∀ n, n ∈ getFixes commits ↔ n ∈ (specCollectRefs commits).filter inIntRange) ∧
    getFixes [⟨"Add feature (#123)"⟩] = [123] := by
  refine ⟨by rw [getFixes, collectRefs_eq_filter], ?_, fun n => ?_, by decide⟩
  · have hnd : (dedupSeen [] (collectRefs commits)).Nodup := nodup_dedupSeen _ _
    exact (List.sorted_insertionSort (· ≤ ·) _).lt_of_le
      ((List.perm_insertionSort (· ≤ ·) _).nodup_iff.mpr hnd)
  · rw [getFixes, (List.perm_insertionSort (· ≤ ·) _).mem_iff,
      mem_dedupSeen, collectRefs_eq_filter]
    simp

theorem sampleEval4 : fields "  ab   cd x ".data = [['a', 'b'], ['c', 'd'], ['x']] := by decide

theorem sampleEval5 : fields "   ".data = [] := by decide

theorem sampleEval6 : wrapParagraph "ab cd x".data 5 = "ab cd \nx".data := by decide

theorem sampleEval7 : wrapParagraph "- aa bb cc".data 6 = "- aa \n  bb \n  cc".data := by decide

theorem sampleEval8 : wrap "a x\n\nb".data 72 = "a x\n\nb".data := by decide

theorem sampleEval9 : normalizeWs "  a \t b  ".data = "a b".data := by decide

theorem isSpaceGo_space : isSpaceGo ' ' = true := rfl

theorem fieldsAux_cons_space {c : Char} (hc : isSpaceGo c = true) (acc cs) :
    fieldsAux acc (c :: cs) =
      if acc = [] then fieldsAux [] cs else acc.reverse :: fieldsAux [] cs := by
  simp [fieldsAux, hc]

theorem fieldsAux_cons_nonspace {c : Char} (hc : isSpaceGo c = false) (acc cs) :
    fieldsAux acc (c :: cs) = fieldsAux (c :: acc) cs := by
  simp [fieldsAux, hc]

theorem fieldsAux_allSpace : ∀ t : List Char, (∀ c ∈ t, isSpaceGo c = true) →
    ∀ acc : List Char, fieldsAux acc t = if acc = [] then [] else [acc.reverse]
  | [], _, acc => rfl
  | c :: cs, h, acc => by
    have hc : isSpaceGo c = true := h c (List.mem_cons_self _ _)
    have ih := fieldsAux_allSpace cs (fun d hd => h d (List.mem_cons_of_mem _ hd))
    simp only [fieldsAux, hc, if_true]
    by_cases ha : acc = [] <;> simp [ha, ih]

theorem fieldsAux_append_space : ∀ (s t : List Char),
    (∀ c ∈ t, isSpaceGo c = true) → ∀ acc, fieldsAux acc (s ++ t) = fieldsAux acc s
  | [], t, ht, acc => by rw [List.nil_append, fieldsAux_allSpace t ht]; rfl
  | c :: cs, t, ht, acc => by
    have ih := fieldsAux_append_space cs t ht
    simp only [List.cons_append, fieldsAux]
    by_cases hc : isSpaceGo c <;> simp only [hc, if_true, if_false]
    · by_cases ha : acc = [] <;> simp [ha, ih]
    · exact ih _

theorem fieldsAux_dropWhile_space : ∀ s : List Char,
    fieldsAux [] (s.dropWhile isSpaceGo) = fieldsAux [] s
  | [] => rfl
  | c :: cs => by
    by_cases hc : isSpaceGo c
    · rw [List.dropWhile_cons_of_pos (by simpa using hc), fieldsAux_dropWhile_space cs]
      simp [fieldsAux, hc]
    · rw [List.dropWhile_cons_of_neg (by simpa using hc)]

theorem fieldsAux_collapseWs : ∀ s : List Char, ∀ acc,
    fieldsAux acc (collapseWs s) = fieldsAux acc s
  | [], _ => rfl
  | [c], acc => by
    by_cases hc : isSpaceGo c <;>
      simp [collapseWs, fieldsAux, hc, isSpaceGo_space]
  | c :: d :: cs, acc => by
    have ih := fieldsAux_collapseWs (d :: cs)
    by_cases hc : isSpaceGo c
    · by_cases hd : isSpaceGo d
      · rw [show collapseWs (c :: d :: cs) = collapseWs (d :: cs) from by
          simp [collapseWs, hc, hd], ih acc, fieldsAux_cons_space hc]
        simp only [fieldsAux_cons_space hd]
        by_cases ha : acc = [] <;> simp [ha]
      · rw [show collapseWs (c :: d :: cs) = ' ' :: collapseWs (d :: cs) from by
          simp [collapseWs, hc, hd], fieldsAux_cons_space isSpaceGo_space,
          ih [], fieldsAux_cons_space hc]
    · have hc' : isSpaceGo c = false := by simpa using hc
      rw [show collapseWs (c :: d :: cs) = c :: collapseWs (d :: cs) from by
        simp [collapseWs, hc'], fieldsAux_cons_nonspace hc',
        fieldsAux_cons_nonspace hc', ih]

theorem fields_normalizeWs (s : List Char) : fields (normalizeWs s) = fields s := by
  unfold fields normalizeWs trimRight
  set z := (collapseWs s).dropWhile isSpaceGo with hz
  have hdecomp : z = (z.reverse.dropWhile isSpaceGo).reverse ++
      (z.reverse.takeWhile isSpaceGo).reverse := by
    conv_lhs => rw [← z.reverse_reverse, ← List.takeWhile_append_dropWhile
      (p := isSpaceGo) (l := z.reverse)]
    rw [List.reverse_append]
  have hsp : ∀ c ∈ (z.reverse.takeWhile isSpaceGo).reverse, isSpaceGo c = true := by
    intro c hcm
    exact List.mem_takeWhile_imp (List.mem_reverse.mp hcm)
  rw [← fieldsAux_collapseWs s [], ← fieldsAux_dropWhile_space (collapseWs s), ← hz]
  conv_rhs => rw [hdecomp]
  rw [fieldsAux_append_space _ _ hsp]

theorem fields_mem : ∀ (s acc : List Char), (∀ c ∈ acc, isSpaceGo c = false) →
    ∀ x ∈ fieldsAux acc s, x ≠ [] ∧ ∀ c ∈ x, isSpaceGo c = false
  | [], acc, hacc, x => by
    by_cases ha : acc = [] <;> simp only [fieldsAux, ha, if_true, if_false]
    · simp
    · intro hx
      rcases List.mem_singleton.mp hx with rfl
      refine ⟨by simpa using ha, fun c hc => hacc c (List.mem_reverse.mp hc)⟩
  | c :: cs, acc, hacc, x => by
    by_cases hc : isSpaceGo c
    · by_cases ha : acc = []
      · rw [show fieldsAux acc (c :: cs) = fieldsAux [] cs from by
          simp [fieldsAux, hc, ha]]
        exact fields_mem cs [] (by simp) x
      · rw [show fieldsAux acc (c :: cs) = acc.reverse :: fieldsAux [] cs from by
          simp [fieldsAux, hc, ha]]
        intro hx
        rcases List.mem_cons.mp hx with rfl | hx
        · exact ⟨by simpa using ha, fun d hd => hacc d (List.mem_reverse.mp hd)⟩
        · exact fields_mem cs [] (by simp) x hx
    · rw [show fieldsAux acc (c :: cs) = fieldsAux (c :: acc) cs from by
        simp [fieldsAux, hc]]
      refine fields_mem cs (c :: acc) ?_ x
      intro d hd
      rcases List.mem_cons.mp hd with rfl | hd
      · simpa using hc
      · exact hacc d hd

theorem fields_allSpace (s : List Char) (h : ∀ c ∈ s, isSpaceGo c = true) :
    fields s = [] := by
  rw [fields, fieldsAux_allSpace s h]; rfl

/-- C10: word wrapping only depends on the whitespace-normalized input —
`wrapParagraph` is unchanged when every maximal whitespace run of the line
is collapsed to one space and leading/trailing whitespace is removed, and a
whitespace-only line renders as an empty line. -/
theorem c10_wrap_whitespace_normalization (s : List Char) (w : Nat) :
    wrapParagraph s w = wrapParagraph (normalizeWs s) w ∧
    ((∀ c ∈ s, isSpaceGo c = true) → wrapParagraph s w = []) := by
  constructor
  · unfold wrapParagraph
    rw [fields_normalizeWs]
  · intro h
    unfold wrapParagraph
    rw [fields_allSpace s h]

theorem isSpaceGo_nl : isSpaceGo '\n' = true := rfl

theorem joinNl_append (done : List (List Char)) (cur z : List Char) :
    joinNl done cur ++ z = joinNl done (cur ++ z) := by
  simp [joinNl]

theorem joinNl_push (done : List (List Char)) (y z : List Char) :
    joinNl done y ++ '\n' :: z = joinNl (done ++ [y]) z := by
  simp [joinNl, List.flatten_append]

theorem splitLines_no_nl : ∀ cur : List Char, '\n' ∉ cur → splitLines cur = [cur]
  | [], _ => rfl
  | c :: cs, h => by
    have hc : ¬(c = '\n') := fun hh => h (hh ▸ List.mem_cons_self _ _)
    have ih := splitLines_no_nl cs fun hh => h (List.mem_cons_of_mem _ hh)
    simp [splitLines, hc, ih]

theorem splitLines_append_nl : ∀ (x rest : List Char), '\n' ∉ x →
    splitLines (x ++ '\n' :: rest) = x :: splitLines rest
  | [], rest, _ => by simp [splitLines]
  | c :: x', rest, h => by
    have hc : ¬(c = '\n') := fun hh => h (hh ▸ List.mem_cons_self _ _)
    have ih := splitLines_append_nl x' rest fun hh => h (List.mem_cons_of_mem _ hh)
    simp only [List.cons_append, splitLines, hc, if_false]
    rw [show x'.append ('\n' :: rest) = x' ++ '\n' :: rest from rfl, ih]

theorem splitLines_joinNl : ∀ (done : List (List Char)) (cur : List Char),
    (∀ x ∈ done, '\n' ∉ x) → '\n' ∉ cur →
    splitLines (joinNl done cur) = done ++ [cur]
  | [], cur, _, hc => by
    rw [show joinNl [] cur = cur from by simp [joinNl], splitLines_no_nl cur hc]
    rfl
  | x :: done, cur, hd, hc => by
    have hx : '\n' ∉ x := hd x (List.mem_cons_self _ _)
    have ih := splitLines_joinNl done cur (fun y hy => hd y (List.mem_cons_of_mem _ hy)) hc
    rw [show joinNl (x :: done) cur = x ++ '\n' :: joinNl done cur from by
      simp [joinNl], splitLines_append_nl x _ hx, ih]
    rfl

theorem dropTrailSp_length_le (x : List Char) : (dropTrailSp x).length ≤ x.length := by
  rw [dropTrailSp, List.length_reverse]
  calc (x.reverse.dropWhile (· = ' ')).length
      ≤ x.reverse.length := (List.dropWhile_sublist _).length_le
    _ = x.length := List.length_reverse x

theorem dropTrailSp_snoc_space (y : List Char) :
    dropTrailSp (y ++ [' ']) = dropTrailSp y := by
  simp [dropTrailSp, List.dropWhile_cons_of_pos]

theorem wpStep_inv (w : Nat) (pref1 : List Char)
    (hp : pref1 = [] ∨ pref1 = [' ', ' '])
    (st : List Char × Nat) (word : List Char)
    (hwne : word ≠ []) (hwns : ∀ c ∈ word, isSpaceGo c = false)
    (hwlen : word.length + 2 ≤ w)
    (h : WpInv w pref1 st) : WpInv w pref1 (wpStep w pref1 st word) := by
  obtain ⟨done, cur, hb, hl, hlw, hnld, hnlc, hspd, htl, hcur⟩ := h
  have hwnl : '\n' ∉ word := fun hmem => by
    have h1 := hwns '\n' hmem
    rw [isSpaceGo_nl] at h1
    exact Bool.noConfusion h1
  have hpnl : '\n' ∉ pref1 := by rcases hp with rfl | rfl <;> simp
  have hplen : pref1.length ≤ 2 := by rcases hp with rfl | rfl <;> simp
  obtain ⟨wh, wt, rfl⟩ : ∃ wh wt, word = wh :: wt := by
    rcases word with _ | ⟨wh, wt⟩
    · exact absurd rfl hwne
    · exact ⟨wh, wt, rfl⟩
  have hwh : isSpaceGo wh = false := hwns wh (List.mem_cons_self _ _)
  simp only [List.length_cons] at hwlen
  rcases st with ⟨b, l⟩
  simp only at hb hl
  subst hb hl
  by_cases hl0 : cur.length > 0
  · -- the current line is nonempty: a separating space is appended first
    have hstep1 : wpStep w pref1 (joinNl done cur, cur.length) (wh :: wt) =
        if cur.length + 1 + (wh :: wt).length > w then
          (joinNl done cur ++ [' '] ++ '\n' :: pref1 ++ (wh :: wt),
            pref1.length + (wh :: wt).length)
        else (joinNl done cur ++ [' '] ++ (wh :: wt), cur.length + 1 + (wh :: wt).length) := by
      simp only [wpStep, hl0, if_true, gt_iff_lt]
      split <;> simp [List.append_assoc]
    rw [hstep1]
    split
    · -- overflow: finish the line (with its trailing space) and indent
      rename_i hov
      refine ⟨done ++ [cur ++ [' ']], pref1 ++ (wh :: wt), ?_, ?_, ?_, ?_, ?_, ?_, ?_, ?_⟩
      · simp [joinNl, List.flatten_append, List.append_assoc]
      · simp
      · simp only [List.length_append, List.length_cons]
        omega
      · intro x hx
        rcases List.mem_append.mp hx with hx | hx
        · exact hnld x hx
        · rcases List.mem_singleton.mp hx with rfl
          intro hmem
          rcases List.mem_append.mp hmem with hmem | hmem
          · exact hnlc hmem
          · simp at hmem
      · intro hmem
        rcases List.mem_append.mp hmem with hmem | hmem
        · exact hpnl hmem
        · exact hwnl hmem
      · intro x hx
        rcases List.mem_append.mp hx with hx | hx
        · exact hspd x hx
        · rcases List.mem_singleton.mp hx with rfl
          exact ⟨cur, rfl, hlw⟩
      · intro x hx
        rcases done with _ | ⟨d0, ds⟩
        · simp at hx
        · have hx' : x ∈ ds ++ [cur ++ [' ']] := by simpa using hx
          rcases List.mem_append.mp hx' with hx2 | hx2
          · exact htl x hx2
          · rcases List.mem_singleton.mp hx2 with rfl
            obtain ⟨c, t, hct, hcns⟩ := hcur (by simp)
            exact ⟨c, t ++ [' '], by rw [hct]; simp, hcns⟩
      · intro _
        exact ⟨wh, wt, rfl, hwh⟩
    · -- the word still fits on the current line
      rename_i hov
      simp only [List.length_cons] at hov
      refine ⟨done, cur ++ [' '] ++ (wh :: wt), ?_, ?_, ?_, hnld, ?_, hspd, htl, ?_⟩
      · simp [joinNl, List.append_assoc]
      · simp only [List.length_append, List.length_cons, List.length_nil]
      · simp only [List.length_append, List.length_cons, List.length_nil]
        omega
      · intro hmem
        rcases List.mem_append.mp hmem with hmem | hmem
        · rcases List.mem_append.mp hmem with hmem | hmem
          · exact hnlc hmem
          · simp at hmem
        · exact hwnl hmem
      · intro hne
        obtain ⟨c, t, hct, hcns⟩ := hcur hne
        exact ⟨c, t ++ [' '] ++ (wh :: wt), by rw [hct]; simp, hcns⟩
  · -- empty current line: the word opens the (first) line
    have hcur0 : cur = [] := List.length_eq_zero.mp (by omega)
    subst hcur0
    have hdone : done = [] := by
      by_contra hne
      obtain ⟨c, t, hct, -⟩ := hcur hne
      exact absurd hct.symm (by simp)
    subst hdone
    show WpInv w pref1 (wpStep w pref1 ([], 0) (wh :: wt))
    have hnov : ¬(w < wt.length + 1) := by omega
    have hstep : wpStep w pref1 ([], 0) (wh :: wt) = (wh :: wt, (wh :: wt).length) := by
      simp [wpStep, hnov]
    rw [hstep]
    refine ⟨[], wh :: wt, by simp [joinNl], rfl, ?_, by simp, hwnl, by simp,
      by simp, by simp⟩
    simp only [List.length_cons]
    omega

theorem wpFoldl_inv (w : Nat) (pref1 : List Char)
    (hp : pref1 = [] ∨ pref1 = [' ', ' ']) :
    ∀ (ws : List (List Char)) (st : List Char × Nat),
      (∀ x ∈ ws, x ≠ [] ∧ (∀ c ∈ x, isSpaceGo c = false) ∧ x.length + 2 ≤ w) →
      WpInv w pref1 st → WpInv w pref1 (ws.foldl (wpStep w pref1) st)
  | [], st, _, h => h
  | x :: ws, st, hws, h => by
    rw [List.foldl_cons]
    obtain ⟨h1, h2, h3⟩ := hws x (List.mem_cons_self _ _)
    exact wpFoldl_inv w pref1 hp ws _
      (fun y hy => hws y (List.mem_cons_of_mem _ hy))
      (wpStep_inv w pref1 hp st x h1 h2 h3 h)

/-- C2 counterexample: with width 5 and words `ab`, `cd`, `x` — all shorter
than the width — the wrap emits the line `ab cd ` of length 6: the
separating space is written before the overflow check, so a line completed
by a wrap carries a trailing space that exceeds the width. -/
theorem c2_counterexample :
    (∀ x ∈ fields "ab cd x".data, x.length < 5) ∧
    ¬(∀ line ∈ splitLines (wrapParagraph "ab cd x".data 5), line.length ≤ 5) := by
  constructor <;> decide

/-- C2 (amended): for a paragraph whose every word is at most `w - 2` long,
every output line of `wrapParagraph` has length at most `w + 1`, and at
most `w` once its trailing spaces (a single space is left when the line was
completed by a wrap) are removed; every continuation line of a paragraph
whose first word is `-` or `*` is indented by exactly two spaces (followed
by a non-whitespace character), the indent being consumed from the width
budget. -/
theorem c2_wrapParagraph_line_bounds (s : List Char) (w : Nat)
    (hwords : ∀ x ∈ fields s, x.length + 2 ≤ w) :
    (∀ line ∈ splitLines (wrapParagraph s w),
        line.length ≤ w + 1 ∧ (dropTrailSp line).length ≤ w) ∧
    (∀ w0 rest, fields s = w0 :: rest → (w0 = ['-'] ∨ w0 = ['*']) →
        ∀ line ∈ (splitLines (wrapParagraph s w)).tail,
          ∃ c t, line = ' ' :: ' ' :: c :: t ∧ isSpaceGo c = false) := by
  rcases h : fields s with _ | ⟨w0, rest⟩
  · have hwp : wrapParagraph s w = [] := by unfold wrapParagraph; rw [h]
    rw [hwp]
    constructor
    · intro line hline
      rcases List.mem_singleton.mp (by simpa [splitLines] using hline) with rfl
      exact ⟨by simp, by simp [dropTrailSp]⟩
    · intro w0 rest h' _ line hline
      exact absurd h' (by simp)
  · have hp : (if w0 = ['-'] || w0 = ['*'] then [' ', ' '] else []) = [] ∨
        (if w0 = ['-'] || w0 = ['*'] then [' ', ' '] else []) = [' ', ' '] := by
      by_cases hb : (w0 = ['-'] || w0 = ['*']) = true <;> simp [hb]
    have hgood : ∀ x ∈ (w0 :: rest),
        x ≠ [] ∧ (∀ c ∈ x, isSpaceGo c = false) ∧ x.length + 2 ≤ w := by
      intro x hx
      have hx' : x ∈ fields s := by rw [h]; exact hx
      have h1 := fields_mem s [] (by simp) x hx'
      exact ⟨h1.1, h1.2, hwords x hx'⟩
    have hinit : WpInv w (if w0 = ['-'] || w0 = ['*'] then [' ', ' '] else []) ([], 0) :=
      ⟨[], [], by simp [joinNl], rfl, by simp, by simp, by simp, by simp, by simp,
        by simp⟩
    obtain ⟨done, cur, hb, hl, hlw, hnld, hnlc, hspd, htl, hcur⟩ :=
      wpFoldl_inv w _ hp (w0 :: rest) ([], 0) hgood hinit
    have hwp : wrapParagraph s w = joinNl done cur := by
      unfold wrapParagraph
      rw [h]
      exact hb
    have hsplit : splitLines (wrapParagraph s w) = done ++ [cur] := by
      rw [hwp]
      exact splitLines_joinNl done cur hnld hnlc
    constructor
    · intro line hline
      rw [hsplit] at hline
      rcases List.mem_append.mp hline with hl1 | hl1
      · obtain ⟨y, rfl, hy⟩ := hspd line hl1
        constructor
        · simp only [List.length_append, List.length_cons, List.length_nil]
          omega
        · rw [dropTrailSp_snoc_space]
          exact le_trans (dropTrailSp_length_le y) hy
      · rcases List.mem_singleton.mp hl1 with rfl
        exact ⟨le_trans hlw (Nat.le_succ w), le_trans (dropTrailSp_length_le _) hlw⟩
    · intro w0' rest' h' hbul line hline
      cases h'
      have hP : (if w0 = ['-'] || w0 = ['*'] then [' ', ' '] else []) = [' ', ' '] := by
        rcases hbul with rfl | rfl <;> simp
      rw [hsplit] at hline
      rcases done with _ | ⟨d0, ds⟩
      · simp at hline
      · have hline' : line ∈ ds ++ [cur] := by simpa using hline
        rcases List.mem_append.mp hline' with hl2 | hl2
        · obtain ⟨c, t, hct, hcns⟩ := htl line hl2
          rw [hP] at hct
          exact ⟨c, t, hct, hcns⟩
        · rcases List.mem_singleton.mp hl2 with rfl
          obtain ⟨c, t, hct, hcns⟩ := hcur (by simp)
          rw [hP] at hct
          exact ⟨c, t, hct, hcns⟩

/-- C2 witness: the amended bounds at the concrete bullet paragraph
`- aa bb cc` with width 6. -/
theorem c2_witness :
    (∀ x ∈ fields "- aa bb cc".data, x.length + 2 ≤ 6) ∧
    ((∀ line ∈ splitLines (wrapParagraph "- aa bb cc".data 6),
        line.length ≤ 6 + 1 ∧ (dropTrailSp line).length ≤ 6) ∧
     (∀ w0 rest, fields "- aa bb cc".data = w0 :: rest → (w0 = ['-'] ∨ w0 = ['*']) →
        ∀ line ∈ (splitLines (wrapParagraph "- aa bb cc".data 6)).tail,
          ∃ c t, line = ' ' :: ' ' :: c :: t ∧ isSpaceGo c = false)) :=
  ⟨by decide, c2_wrapParagraph_line_bounds "- aa bb cc".data 6 (by decide)⟩

/-- C10 witness: the normalization identity and the whitespace-only case at
a concrete input. -/
theorem c10_witness :
    wrapParagraph " \t ".data 7 = wrapParagraph (normalizeWs " \t ".data) 7 ∧
    wrapParagraph " \t ".data 7 = [] :=
  ⟨(c10_wrap_whitespace_normalization " \t ".data 7).1,
    (c10_wrap_whitespace_normalization " \t ".data 7).2 (by decide)⟩

theorem partitionIssues_eq (skipLabels : List String) : ∀ issues : List Issue,
    partitionIssues skipLabels issues =
      ((issues.filter (survives skipLabels)).filter
          (fun i => containsGo "bug" (labelsOf i)),
        (issues.filter (survives skipLabels)).filter
          (fun i => !containsGo "bug" (labelsOf i) &&
            containsGo "enhancement" (labelsOf i)),
        (issues.filter (survives skipLabels)).filter
          (fun i => !containsGo "bug" (labelsOf i) &&
            !containsGo "enhancement" (labelsOf i)))
  | [] => rfl
  | i :: is => by
    have ih := partitionIssues_eq skipLabels is
    simp only [partitionIssues, ih, List.filter_cons, survives]
    by_cases h1 : i.isPR <;>
      by_cases h2 : skipLabels.any (fun sk => containsGo sk (labelsOf i)) = true <;>
      by_cases h3 : containsGo "bug" (labelsOf i) = true <;>
      by_cases h4 : containsGo "enhancement" (labelsOf i) = true <;>
      simp [h1, h2, h3, h4]

/-- C5: the changelog partition assigns each surviving issue by first
matching rule — `bug` wins over `enhancement`, the rest go to Other — and
on the four sample label sets the issues land in Bugfixes, Enhancements,
Bugfixes, Other respectively. -/
theorem c5_partition_first_match :
    (∀ (skipLabels : List String) (issues : List Issue),
      partitionIssues skipLabels issues =
        ((issues.filter (survives skipLabels)).filter
            (fun i => containsGo "bug" (labelsOf i)),
          (issues.filter (survives skipLabels)).filter
            (fun i => !containsGo "bug" (labelsOf i) &&
              containsGo "enhancement" (labelsOf i)),
          (issues.filter (survives skipLabels)).filter
            (fun i => !containsGo "bug" (labelsOf i) &&
              !containsGo "enhancement" (labelsOf i)))) ∧
    partitionIssues []
        [⟨1, "closed", none, ["bug"], "a", "u", false⟩,
          ⟨2, "closed", none, ["enhancement"], "b", "u", false⟩,
          ⟨3, "closed", none, ["bug", "enhancement"], "c", "u", false⟩,
          ⟨4, "closed", none, [], "d", "u", false⟩] =
      ([⟨1, "closed", none, ["bug"], "a", "u", false⟩,
          ⟨3, "closed", none, ["bug", "enhancement"], "c", "u", false⟩],
        [⟨2, "closed", none, ["enhancement"], "b", "u", false⟩],
        [⟨4, "closed", none, [], "d", "u", false⟩]) :=
  ⟨partitionIssues_eq, by decide⟩

/-- C6: an issue that is a pull request or carries a label of the skip list
appears in none of the three buckets of the changelog partition. -/
theorem c6_skipped_issue_excluded (skipLabels : List String) (issues : List Issue)
    (i : Issue)
    (h : i.isPR = true ∨ ∃ l ∈ skipLabels, containsGo l (labelsOf i) = true) :
    i ∉ (partitionIssues skipLabels issues).1 ∧
    i ∉ (partitionIssues skipLabels issues).2.1 ∧
    i ∉ (partitionIssues skipLabels issues).2.2 := by
  have heq := partitionIssues_eq skipLabels issues
  have hsurv : survives skipLabels i = false := by
    rcases h with h | ⟨l, hl, hcont⟩
    · simp [survives, h]
    · simp only [survives, Bool.and_eq_false_iff]
      right
      simp only [Bool.not_eq_false', List.any_eq_true]
      exact ⟨l, hl, hcont⟩
  rw [heq]
  refine ⟨?_, ?_, ?_⟩ <;> intro hmem <;>
    have h1 := (List.mem_filter.mp (List.mem_filter.mp hmem).1).2 <;>
    rw [hsurv] at h1 <;> exact Bool.noConfusion h1

/-- C6 witness: a pull request and a skip-labelled issue excluded from all
buckets on a concrete issue list. -/
theorem c6_witness :
    ((⟨9, "closed", none, ["bug"], "pr", "u", true⟩ : Issue).isPR = true ∨
      ∃ l ∈ ["wontfix"],
        containsGo l (labelsOf ⟨9, "closed", none, ["bug"], "pr", "u", true⟩) = true) ∧
    (⟨9, "closed", none, ["bug"], "pr", "u", true⟩ : Issue) ∉
      (partitionIssues ["wontfix"]
        [⟨9, "closed", none, ["bug"], "pr", "u", true⟩,
          ⟨4, "closed", none, [], "d", "u", false⟩]).1 :=
  ⟨Or.inl rfl,
    (c6_skipped_issue_excluded ["wontfix"]
      [⟨9, "closed", none, ["bug"], "pr", "u", true⟩,
        ⟨4, "closed", none, [], "d", "u", false⟩]
      ⟨9, "closed", none, ["bug"], "pr", "u", true⟩ (Or.inl rfl)).1⟩

theorem releaseMilestone_eq_takeWhile (r : String) :
    releaseMilestone r = String.mk (r.data.takeWhile (· ≠ '-')) := by
  unfold releaseMilestone splitN2dash
  cases h : r.data.dropWhile (· ≠ '-') <;> simp [h]

theorem releaseMilestone_ne_of_dash {r : String} (hdash : '-' ∈ r.data) :
    r ≠ releaseMilestone r := by
  intro he
  rw [releaseMilestone_eq_takeWhile] at he
  have hdata : r.data.takeWhile (· ≠ '-') = r.data := congrArg String.data he.symm
  rw [← hdata] at hdash
  have := List.mem_takeWhile_imp hdash
  simp at this

theorem changelog_head_event (c : Client) (owner repo release : String) (md : Bool)
    (skipLabels : List String) (withSubject : Bool) :
    (changelog c owner repo release md skipLabels withSubject).1.head? =
      some (Event.readMilestone (releaseMilestone release)) := by
  unfold changelog
  rcases h : c.milestoneByTitle (releaseMilestone release) with _ | stone
  · simp [h]
  · rcases h2 : c.issuesByMilestone stone.number <;> simp [h, h2]

theorem createRelease_head_event (c : Client) (release chlog : String) :
    (createRelease c release chlog).1.head? =
      some (Event.readMilestone (releaseMilestone release)) := by
  unfold createRelease
  rcases h : c.milestoneByTitle (releaseMilestone release) with _ | stone
  · simp [h]
  · rcases h2 : c.createReleaseRes ⟨release, release, chlog, releasePre release, false⟩
      with e | u
    · simp [h, h2]
    · by_cases hpre : releasePre release = true
      · rw [hpre] at h2
        simp [h, h2, hpre]
      · simp only [Bool.not_eq_true] at hpre
        rw [hpre] at h2
        rcases h3 : c.editMilestoneRes stone.number "closed" with e | u <;>
          simp [h, h2, h3, hpre]

theorem createRelease_flag (c : Client) (release chlog : String)
    (rel : RepositoryRelease)
    (hmem : Event.createReleaseCall rel ∈ (createRelease c release chlog).1) :
    rel = ⟨release, release, chlog, releasePre release, false⟩ := by
  unfold createRelease at hmem
  rcases h : c.milestoneByTitle (releaseMilestone release) with _ | stone
  · simp [h] at hmem
  · rcases h2 : c.createReleaseRes ⟨release, release, chlog, releasePre release, false⟩
      with e | u
    · simp [h, h2] at hmem
      exact hmem
    · by_cases hpre : releasePre release = true
      · rw [hpre] at h2 ⊢
        simp [h, h2, hpre] at hmem
        exact hmem
      · simp only [Bool.not_eq_true] at hpre
        rw [hpre] at h2 ⊢
        rcases h3 : c.editMilestoneRes stone.number "closed" with e | u <;>
          simp [h, h2, h3, hpre] at hmem <;> exact hmem

/-- C4: the milestone title used by both the changelog and the release
operation is the part of the release name before the first `-` (the whole
name when it has none), the created release's prerelease flag is set
exactly when the release name differs from that title, and the two sample
names split as claimed. -/
theorem c4_release_name_split :
    (∀ r : String,
      releaseMilestone r = String.mk (r.data.takeWhile (· ≠ '-')) ∧
      (releasePre r = true ↔ r ≠ releaseMilestone r)) ∧
    (∀ (c : Client) (owner repo r : String) (md : Bool) (sk : List String)
        (ws : Bool),
      (changelog c owner repo r md sk ws).1.head? =
        some (Event.readMilestone (releaseMilestone r))) ∧
    (∀ (c : Client) (r b : String) (rel : RepositoryRelease),
      Event.createReleaseCall rel ∈ (createRelease c r b).1 →
        rel.prerelease = releasePre r ∧
        (rel.prerelease = true ↔ r ≠ releaseMilestone r)) ∧
    releaseMilestone "v1.2.0" = "v1.2.0" ∧ releasePre "v1.2.0" = false ∧
    releaseMilestone "v1.2.0-rc.1" = "v1.2.0" ∧ releasePre "v1.2.0-rc.1" = true := by
  refine ⟨fun r => ⟨releaseMilestone_eq_takeWhile r, ?_⟩,
    fun c owner repo r md sk ws => changelog_head_event c owner repo r md sk ws,
    fun c r b rel hmem => ?_, by decide, by decide, by decide, by decide⟩
  · unfold releasePre
    exact bne_iff_ne
  · have h := createRelease_flag c r b rel hmem
    subst h
    exact ⟨rfl, by unfold releasePre; exact bne_iff_ne⟩

/-- C4 witness: the prerelease-flag characterization applied on a concrete
client run. -/
theorem c4_witness :
    Event.createReleaseCall ⟨"v1.2.0-rc.1", "v1.2.0-rc.1", "body", true, false⟩ ∈
      (createRelease clientA "v1.2.0-rc.1" "body").1 ∧
    (⟨"v1.2.0-rc.1", "v1.2.0-rc.1", "body", true, false⟩ :
        RepositoryRelease).prerelease = releasePre "v1.2.0-rc.1" := by
  refine ⟨by decide, ?_⟩
  exact (c4_release_name_split.2.2.1 clientA "v1.2.0-rc.1" "body" _ (by decide)).1

/-- C3 counterexample: `createMilestone` of `src/grt/main.go` has no
pull-request check — a fetched issue that is a closed pull request with no
milestone is not skipped: the milestone is assigned to it. -/
theorem c3_counterexample :
    clientPR.getIssueRes 7 = .ok ⟨7, "closed", none, [], "t", "u", true⟩ ∧
    (⟨7, "closed", none, [], "t", "u", true⟩ : Issue).isPR = true ∧
    Event.editIssueCall 7 1 ∈ (createMilestone clientPR "a" "b" "M" false false).1 :=
  ⟨rfl, rfl, by decide⟩

/-- C3 (amended): in the per-issue loop of `createMilestone` (outside
dry-run) the issue is fetched and then skipped with only a log message if
and only if the fetch fails, the issue is not closed, or it carries a
different milestone while `force` is unset; an issue already carrying this
very milestone is skipped as a no-op; otherwise the milestone's number is
assigned to the issue (there is no pull-request check). -/
theorem c3_issue_skip_rules (c : Client) (stoneN : Nat) (force : Bool) (fix : Nat) :
    (∀ e, c.getIssueRes fix = .error e →
      processFix c stoneN force false fix =
        [Event.readIssue fix, Event.logGetIssueErr e]) ∧
    (∀ issue, c.getIssueRes fix = .ok issue →
      (issue.state ≠ "closed" →
        processFix c stoneN force false fix =
          [Event.readIssue fix, Event.logNotClosed fix]) ∧
      (issue.state = "closed" → issue.milestone = some stoneN →
        processFix c stoneN force false fix =
          [Event.readIssue fix, Event.logAlreadyCorrect fix]) ∧
      (∀ m, issue.state = "closed" → issue.milestone = some m → m ≠ stoneN →
        force = false →
        processFix c stoneN force false fix =
          [Event.readIssue fix, Event.logAlreadyOther fix]) ∧
      ((Event.editIssueCall issue.number stoneN ∈ processFix c stoneN force false fix) ↔
        issue.state = "closed" ∧
          (issue.milestone = none ∨ (force = true ∧ issue.milestone ≠ some stoneN)))) := by
  rcases h : c.getIssueRes fix with e0 | issue0
  · refine ⟨fun e he => ?_, fun issue hiss => ?_⟩
    · injection he with he
      subst he
      simp [processFix, h]
    · exact absurd hiss (by simp)
  · refine ⟨fun e he => ?_, fun issue hiss => ?_⟩
    · exact absurd he (by simp)
    · injection hiss with hiss
      subst hiss
      refine ⟨fun hstate => by simp [processFix, h, hstate], ?_, ?_, ?_⟩
      · intro hstate hms
        simp [processFix, h, hstate, hms]
      · intro m hstate hms hm hforce
        simp [processFix, h, hstate, hms, hm, hforce]
      · by_cases hstate : issue0.state = "closed"
        · rcases hmil : issue0.milestone with _ | m
          · rcases h2 : c.editIssueRes issue0.number stoneN with e2 | u2 <;>
              simp [processFix, h, hstate, hmil, h2]
          · by_cases hm : m = stoneN
            · subst hm
              simp [processFix, h, hstate, hmil]
            · by_cases hforce : force = true
              · rcases h2 : c.editIssueRes issue0.number stoneN with e2 | u2 <;>
                  simp [processFix, h, hstate, hmil, hm, hforce, h2]
              · simp only [Bool.not_eq_true] at hforce
                simp [processFix, h, hstate, hmil, hm, hforce]
        · simp [processFix, h, hstate]

/-- C3 witness: on a concrete client a closed, milestone-free issue gets
the milestone assigned. -/
theorem c3_witness :
    Event.editIssueCall 3 7 ∈ processFix clientA 7 false false 3 :=
  (((c3_issue_skip_rules clientA 7 false 3).2 ⟨3, "closed", none, [], "t", "u", false⟩
      rfl).2.2.2).mpr ⟨rfl, Or.inl rfl⟩

/-- C7: on the success path (milestone found, release creation accepted)
the release publisher renders the changelog with `withSubject = false`,
makes exactly one release-creation call whose resource has name = tag =
release name, the rendered changelog as body, prerelease exactly when the
name differs from the milestone title, and draft = false; and it edits the
milestone to state `closed` if and only if the release is not a
prerelease. -/
theorem c7_release_publisher (c : Client) (owner repo release : String)
    (skipLabels : List String) (stone : Milestone) (issues : List Issue)
    (hm : c.milestoneByTitle (releaseMilestone release) = some stone)
    (hi : c.issuesByMilestone stone.number = .ok issues)
    (hcr : ∀ rel, c.createReleaseRes rel = .ok ()) :
    (releaseRun c owner repo release skipLabels).1.filter Event.isCreateRelease =
      [Event.createReleaseCall
        ⟨release, release,
          changelogOutput owner repo release false skipLabels false stone issues,
          releasePre release, false⟩] ∧
    ((Event.editMilestoneCall stone.number "closed" ∈
        (releaseRun c owner repo release skipLabels).1) ↔
      releasePre release = false) := by
  have hbody : changelog c owner repo release false skipLabels false =
      ([Event.readMilestone (releaseMilestone release),
        Event.readIssuesByMilestone stone.number],
        .ok (changelogOutput owner repo release false skipLabels false stone issues)) := by
    simp [changelog, hm, hi]
  unfold releaseRun
  rw [hbody]
  have hrel := hcr ⟨release, release,
    changelogOutput owner repo release false skipLabels false stone issues,
    releasePre release, false⟩
  by_cases hpre : releasePre release = true
  · rw [hpre] at hrel
    simp [createRelease, hm, hrel, hpre, Event.isCreateRelease]
  · simp only [Bool.not_eq_true] at hpre
    rw [hpre] at hrel
    rcases h3 : c.editMilestoneRes stone.number "closed" with e3 | u3 <;>
      simp [createRelease, hm, hrel, hpre, h3, Event.isCreateRelease]

/-- C7 witness: the release publisher on a concrete client and the final
release `v1.2.0`. -/
theorem c7_witness :
    (releaseRun clientA "o" "r" "v1.2.0" []).1.filter Event.isCreateRelease =
      [Event.createReleaseCall
        ⟨"v1.2.0", "v1.2.0",
          changelogOutput "o" "r" "v1.2.0" false [] false ⟨1, "v1.2.0", ""⟩
            [⟨1, "closed", some 1, ["bug"], "Crash", "u1", false⟩],
          releasePre "v1.2.0", false⟩] ∧
    ((Event.editMilestoneCall 1 "closed" ∈ (releaseRun clientA "o" "r" "v1.2.0" []).1) ↔
      releasePre "v1.2.0" = false) :=
  c7_release_publisher clientA "o" "r" "v1.2.0" [] ⟨1, "v1.2.0", ""⟩
    [⟨1, "closed", some 1, ["bug"], "Crash", "u1", false⟩]
    (by decide) rfl (fun _ => rfl)

theorem filter_flatMap {α β} (p : β → Bool) (f : α → List β) :
    ∀ l : List α, (l.flatMap f).filter p = l.flatMap fun x => (f x).filter p
  | [] => rfl
  | x :: xs => by
    simp [List.flatMap_cons, List.filter_append, filter_flatMap p f xs]

theorem filter_flatMap_nil {α β} (p : β → Bool) (f : α → List β)
    (h : ∀ x, (f x).filter p = []) : ∀ l : List α, (l.flatMap f).filter p = []
  | [] => rfl
  | x :: xs => by
    simp [List.flatMap_cons, List.filter_append, h x, filter_flatMap_nil p f h xs]

theorem processFix_dry_no_mutation (c : Client) (stoneN : Nat) (force : Bool)
    (fix : Nat) :
    (processFix c stoneN force true fix).filter Event.isMutation = [] := by
  rcases h : c.getIssueRes fix with e | issue
  · simp [processFix, h, Event.isMutation]
  · by_cases hstate : issue.state = "closed"
    · rcases hmil : issue.milestone with _ | m
      · simp [processFix, h, hstate, hmil, Event.isMutation]
      · by_cases hm : m = stoneN
        · subst hm
          simp [processFix, h, hstate, hmil, Event.isMutation]
        · by_cases hforce : force = true <;>
            simp [processFix, h, hstate, hmil, hm, hforce, Event.isMutation]
    · simp [processFix, h, hstate, Event.isMutation]

theorem processFix_dry_eq_filter (c : Client) (stoneN : Nat) (force : Bool) (fix : Nat)
    (hedit : ∀ n k, c.editIssueRes n k = .ok ()) :
    processFix c stoneN force true fix =
      (processFix c stoneN force false fix).filter (fun e => !e.isMutation) := by
  rcases h : c.getIssueRes fix with e | issue
  · simp [processFix, h, Event.isMutation]
  · by_cases hstate : issue.state = "closed"
    · rcases hmil : issue.milestone with _ | m
      · simp [processFix, h, hstate, hmil, hedit issue.number stoneN, Event.isMutation]
      · by_cases hm : m = stoneN
        · subst hm
          simp [processFix, h, hstate, hmil, Event.isMutation]
        · by_cases hforce : force = true <;>
            simp [processFix, h, hstate, hmil, hm, hforce,
              hedit issue.number stoneN, Event.isMutation]
    · simp [processFix, h, hstate, Event.isMutation]

/-- C8 counterexample: the claim that the dry run's reads and per-issue
decisions equal the real run's up to the suppressed mutations fails when
the milestone does not pre-exist: the real run works with the created
milestone's number while the dry run works with the nil milestone's number
0, so an issue already carrying the created milestone is judged
`already correctly marked` by the real run but `marked with another
milestone` by the dry run. -/
theorem c8_counterexample :
    (createMilestone
        { milestoneByTitle := fun _ => none,
          createMilestoneRes := fun t => .ok ⟨5, t, ""⟩,
          compareCommitsRes := fun _ _ => .ok [⟨"fix stuff, fixes #7"⟩],
          getIssueRes := fun n => .ok ⟨n, "closed", some 5, [], "t", "u", false⟩,
          editIssueRes := fun _ _ => .ok (),
          issuesByMilestone := fun _ => .ok [],
          createReleaseRes := fun _ => .ok (),
          editMilestoneRes := fun _ _ => .ok () } "a" "b" "M" false true).1 ≠
      ((createMilestone
        { milestoneByTitle := fun _ => none,
          createMilestoneRes := fun t => .ok ⟨5, t, ""⟩,
          compareCommitsRes := fun _ _ => .ok [⟨"fix stuff, fixes #7"⟩],
          getIssueRes := fun n => .ok ⟨n, "closed", some 5, [], "t", "u", false⟩,
          editIssueRes := fun _ _ => .ok (),
          issuesByMilestone := fun _ => .ok [],
          createReleaseRes := fun _ => .ok (),
          editMilestoneRes := fun _ _ => .ok () } "a" "b" "M" false false).1).filter
        (fun e => !e.isMutation) := by decide

/-- C8 (amended): a dry run of milestone synchronization performs zero
mutating calls for every input; when the milestone already exists (so both
runs use the same milestone number) and issue edits succeed, the dry run's
event trace is exactly the real run's with the mutating calls removed; and
against a repository with no milestone of the given name the dry run logs
the intended creation and logs the intended assignment of every extracted
issue that is closed and passes the milestone check against the nil
milestone number 0. -/
theorem c8_dry_run_frame (c : Client) (since toRef m : String) (force : Bool) :
    (createMilestone c since toRef m force true).1.filter Event.isMutation = [] ∧
    (∀ stone, c.milestoneByTitle m = some stone →
      (∀ n k, c.editIssueRes n k = .ok ()) →
      (createMilestone c since toRef m force true).1 =
        ((createMilestone c since toRef m force false).1).filter
          (fun e => !e.isMutation)) ∧
    (c.milestoneByTitle m = none →
      Event.logCreatingMilestone m ∈ (createMilestone c since toRef m force true).1) ∧
    (c.milestoneByTitle m = none →
      ∀ commits, c.compareCommitsRes since toRef = .ok commits →
      ∀ fix ∈ getFixes commits, ∀ issue, c.getIssueRes fix = .ok issue →
        issue.state = "closed" →
        (issue.milestone = none ∨ (force = true ∧ issue.milestone ≠ some 0)) →
        Event.logMarking fix ∈ (createMilestone c since toRef m force true).1) := by
  refine ⟨?_, ?_, ?_, ?_⟩
  · rcases hl : c.milestoneByTitle m with _ | stone
    · simp only [createMilestone, hl, if_true]
      rcases hc : c.compareCommitsRes since toRef with e | commits
      · simp [createMilestoneLoop, hc, Event.isMutation]
      · simp [createMilestoneLoop, hc, List.filter_append, Event.isMutation,
          filter_flatMap_nil Event.isMutation _
            (processFix_dry_no_mutation c 0 force) (getFixes commits)]
    · simp only [createMilestone, hl]
      rcases hc : c.compareCommitsRes since toRef with e | commits
      · simp [createMilestoneLoop, hc, Event.isMutation]
      · simp [createMilestoneLoop, hc, List.filter_append, Event.isMutation,
          filter_flatMap_nil Event.isMutation _
            (processFix_dry_no_mutation c stone.number force) (getFixes commits)]
  · intro stone hl hedit
    simp only [createMilestone, hl]
    rcases hc : c.compareCommitsRes since toRef with e | commits <;>
      simp only [createMilestoneLoop, hc]
    · simp [Event.isMutation]
    · have hfun : processFix c stone.number force true =
          fun x => (processFix c stone.number force false x).filter
            (fun e => !e.isMutation) :=
        funext fun fix => processFix_dry_eq_filter c stone.number force fix hedit
      simp only [List.filter_append, List.filter_cons, filter_flatMap]
      rw [hfun]
      simp [Event.isMutation]
  · intro hl
    simp only [createMilestone, hl, if_true]
    rcases hc : c.compareCommitsRes since toRef with e | commits <;>
      simp [createMilestoneLoop, hc]
  · intro hl commits hc fix hfix issue hiss hstate hcond
    simp only [createMilestone, hl, if_true]
    simp only [createMilestoneLoop, hc]
    have hproc : Event.logMarking fix ∈ processFix c 0 force true fix := by
      rcases hcond with hnone | ⟨hforce, hne⟩
      · simp [processFix, hiss, hstate, hnone]
      · rcases hmil : issue.milestone with _ | mm
        · simp [processFix, hiss, hstate, hmil]
        · have hm0 : ¬(mm = 0) := by
            rw [hmil] at hne
            intro hh
            exact hne (by rw [hh])
          simp [processFix, hiss, hstate, hmil, hforce, hm0]
    refine List.mem_append.mpr (Or.inr ?_)
    refine List.mem_cons.mpr (Or.inr ?_)
    exact List.mem_flatMap.mpr ⟨fix, hfix, hproc⟩

/-- C8 witness: zero mutating calls and trace equality up to mutations on a
concrete client with a pre-existing milestone. -/
theorem c8_witness :
    (createMilestone clientA "a" "b" "v1.2.0" false true).1.filter Event.isMutation =
      [] ∧
    (createMilestone clientA "a" "b" "v1.2.0" false true).1 =
      ((createMilestone clientA "a" "b" "v1.2.0" false false).1).filter
        (fun e => !e.isMutation) :=
  ⟨(c8_dry_run_frame clientA "a" "b" "v1.2.0" false).1,
    (c8_dry_run_frame clientA "a" "b" "v1.2.0" false).2.1 ⟨1, "v1.2.0", ""⟩ (by decide)
      (fun _ _ => rfl)⟩

/-- C9: when the changelog is rendered with a heading, the heading shows
the release argument itself while the issues come from the milestone
derived by splitting at the first `-`; for a release name containing `-`
the printed heading therefore differs from the milestone title, and in
markdown mode the link target path also uses the release name. -/
theorem c9_heading_shows_release (c : Client) (owner repo release : String)
    (skipLabels : List String) (stone : Milestone) (issues : List Issue)
    (hdash : '-' ∈ release.data)
    (hm : c.milestoneByTitle (releaseMilestone release) = some stone)
    (hi : c.issuesByMilestone stone.number = .ok issues) :
    release ≠ releaseMilestone release ∧
    (changelog c owner repo release false skipLabels true).1.head? =
      some (Event.readMilestone (releaseMilestone release)) ∧
    (∃ rest, (changelog c owner repo release false skipLabels true).2 =
      .ok (release ++ "\n\n" ++ rest)) ∧
    (∃ rest, (changelog c owner repo release true skipLabels true).2 =
      .ok ("# [" ++ release ++ "](https://github.com/" ++ owner ++ "/" ++ repo ++
        "/releases/" ++ release ++ ")\n\n" ++ rest)) := by
  refine ⟨releaseMilestone_ne_of_dash hdash,
    changelog_head_event c owner repo release false skipLabels true, ?_, ?_⟩
  · refine ⟨descriptionBlock stone.description ++
      bucketSection false "## Bugfixes" "Bugfixes:"
        (partitionIssues skipLabels
          (List.insertionSort (fun a b => a.number ≤ b.number) issues)).1 ++
      bucketSection false "## Enhancements" "Enhancements:"
        (partitionIssues skipLabels
          (List.insertionSort (fun a b => a.number ≤ b.number) issues)).2.1 ++
      bucketSection false "## Other issues" "Other issues:"
        (partitionIssues skipLabels
          (List.insertionSort (fun a b => a.number ≤ b.number) issues)).2.2, ?_⟩
    simp [changelog, hm, hi, changelogOutput, subjectLine, String.append_assoc]
  · refine ⟨descriptionBlock stone.description ++
      bucketSection true "## Bugfixes" "Bugfixes:"
        (partitionIssues skipLabels
          (List.insertionSort (fun a b => a.number ≤ b.number) issues)).1 ++
      bucketSection true "## Enhancements" "Enhancements:"
        (partitionIssues skipLabels
          (List.insertionSort (fun a b => a.number ≤ b.number) issues)).2.1 ++
      bucketSection true "## Other issues" "Other issues:"
        (partitionIssues skipLabels
          (List.insertionSort (fun a b => a.number ≤ b.number) issues)).2.2, ?_⟩
    simp [changelog, hm, hi, changelogOutput, subjectLine, String.append_assoc]

/-- C9 witness: the heading/milestone divergence on the concrete release
candidate name `v1.2.0-rc.1`. -/
theorem c9_witness :
    "v1.2.0-rc.1" ≠ releaseMilestone "v1.2.0-rc.1" ∧
    (changelog clientA "o" "r" "v1.2.0-rc.1" false [] true).1.head? =
      some (Event.readMilestone (releaseMilestone "v1.2.0-rc.1")) :=
  ⟨(c9_heading_shows_release clientA "o" "r" "v1.2.0-rc.1" [] ⟨1, "v1.2.0", ""⟩
      [⟨1, "closed", some 1, ["bug"], "Crash", "u1", false⟩] (by decide) (by decide)
      rfl).1,
    (c9_heading_shows_release clientA "o" "r" "v1.2.0-rc.1" [] ⟨1, "v1.2.0", ""⟩
      [⟨1, "closed", some 1, ["bug"], "Crash", "u1", false⟩] (by decide) (by decide)
      rfl).2.1⟩


/-- The end-to-end plain changelog of the specification's worked example:
milestone `v1.0.0` with a bug, an enhancement and an unlabelled issue. -/
theorem sampleEval10 :
    changelogOutput "o" "r" "v1.0.0" false [] true ⟨1, "v1.0.0", ""⟩
      [⟨1, "closed", some 1, ["bug"], "Crash on start", "u1", false⟩,
        ⟨2, "closed", some 1, ["enhancement"], "Add flag", "u2", false⟩,
        ⟨3, "closed", some 1, [], "Typo", "u3", false⟩] =
    "v1.0.0\n\nBugfixes:\n\n- #1: Crash on start\n\nEnhancements:\n\n- #2: Add flag\n\nOther issues:\n\n- #3: Typo\n\n" := by
  decide

end Grt
